import Mathlib

/-!
Verification of the ingestion core of the `ufro-assistant` repository
(`rag/ingest.py`), via a shallow embedding of its pure text-processing
functions into Lean.

Modelling conventions:
* Python strings are modelled as `List Char`; slicing `text[a:b]` becomes
  `(t.drop a).take (b - a)`.
* `str.strip()` is modelled by `pyStrip`, which removes leading/trailing
  characters of the Python whitespace class (here: the Latin-1 whitespace
  characters; the remaining Unicode space characters behave identically
  with respect to every theorem below, since no theorem depends on which
  particular characters count as whitespace).
* The external extraction backends (`pypdf`, `pdfminer`) perform I/O; their
  results (a list of per-page strings) are inputs of the embedded functions,
  exactly as `extract_pdf_text` consumes them.
* The `while` loop of `chunk_text` is embedded as the fuel-indexed
  `chunkLoop`; `none` means the fuel was exhausted before the loop ended.
  `chunk_text` supplies a fuel bound that is proved sufficient whenever
  `overlap < size` (and is genuinely insufficient for every fuel when
  `overlap ≥ size`, mirroring the non-termination of the Python loop).
-/

/-- Python whitespace class (`str.isspace`, drives `str.strip()` and
`str.split()`), restricted to the Latin-1 range. -/
def isPyWhite (c : Char) : Bool :=
  let n := c.toNat
  n = 32 || n = 9 || n = 10 || n = 13 || n = 11 || n = 12 ||
  n = 28 || n = 29 || n = 30 || n = 31 || n = 133 || n = 160

/-- `str.strip()`: drop leading and trailing whitespace. -/
def pyStrip (s : List Char) : List Char :=
  ((s.dropWhile isPyWhite).reverse.dropWhile isPyWhite).reverse

/-- `text.replace("\r", "\n")` — the first normalisation step of `clean_text`. -/
def mapCR (s : List Char) : List Char :=
  s.map (fun c => if c = '\r' then '\n' else c)

/-- The character class of the regex `[ \t]`. -/
def isST (c : Char) : Bool := c = ' ' || c = '\t'

/-- Scanner for `re.sub(r"[ \t]+", " ", text)`.  The flag records whether the
scan is inside a run of spaces/tabs whose replacement space has already been
emitted; each maximal `[ \t]` run thus contributes exactly one `' '`. -/
def collapseSPAux (inRun : Bool) (s : List Char) : List Char :=
  match s with
  | [] => []
  | c :: rest =>
    if isST c then
      if inRun then collapseSPAux true rest
      else ' ' :: collapseSPAux true rest
    else c :: collapseSPAux false rest

/-- `re.sub(r"[ \t]+", " ", text)`: each maximal run of spaces/tabs is
replaced by a single space (left-to-right scan). -/
def collapseSP (s : List Char) : List Char := collapseSPAux false s

/-- The run of newlines a `\n{…}` scanner state stands for: runs of three or
more newlines are replaced by exactly two, shorter runs are kept verbatim. -/
def nlBlock (p : Nat) : List Char :=
  if 3 ≤ p then ['\n', '\n'] else List.replicate p '\n'

/-- Scanner for `re.sub(r"\n{3,}", "\n\n", text)`: `p` counts the pending
newlines of the current run (saturated at 3, which already means "three or
more"); the run is flushed via `nlBlock` when a non-newline character or the
end of the text is reached. -/
def collapseNLAux (p : Nat) (s : List Char) : List Char :=
  match s with
  | [] => nlBlock p
  | c :: rest =>
    if c = '\n' then collapseNLAux (min (p + 1) 3) rest
    else nlBlock p ++ c :: collapseNLAux 0 rest

/-- `re.sub(r"\n{3,}", "\n\n", text)`: each maximal run of three or more
newlines is replaced by exactly two newlines; shorter runs are kept. -/
def collapseNL (s : List Char) : List Char := collapseNLAux 0 s

/-- `clean_text` from `rag/ingest.py`:
`\r → \n`, collapse `[ \t]+` to one space, collapse `\n{3,}` to `\n\n`,
then `strip()`. -/
def clean_text (s : List Char) : List Char :=
  pyStrip (collapseNL (collapseSP (mapCR s)))

/-! ### The chunker -/

/-- Default `CHUNK_SIZE` of `rag/ingest.py`. -/
def CHUNK_SIZE : Nat := 3800

/-- Default `CHUNK_OVERLAP` of `rag/ingest.py`. -/
def CHUNK_OVERLAP : Nat := 500

/-- The `while start < n` loop of `chunk_text`, indexed by fuel.  One unit of
fuel is spent per iteration; `none` means the fuel ran out with the loop
still running.  `end_ - overlap` is truncated subtraction, which coincides
with Python's `max(0, end - overlap)`. -/
def chunkLoop (fuel : Nat) (t : List Char) (size overlap : Nat) (start : Nat) :
    Option (List (List Char)) :=
  match fuel with
  | 0 => none
  | fuel + 1 =>
    if start < t.length then
      let e := min t.length (start + size)
      let chunk := (t.drop start).take (e - start)
      if e = t.length then some [chunk]
      else
        match chunkLoop fuel t size overlap (e - overlap) with
        | none => none
        | some rest => some (chunk :: rest)
    else some []

/-- `chunk_text` from `rag/ingest.py`.  The fuel `n + 1` is sufficient for
every terminating run of the Python loop (proved below for
`overlap < size`); a `none` result signals that the Python loop would not
have terminated. -/
def chunk_text (text : List Char) (size overlap : Nat) :
    Option (List (List Char)) :=
  let t := pyStrip text
  let n := t.length
  if n ≤ size then some [t]
  else chunkLoop (n + 1) t size overlap 0

/-! ### PDF extraction acceptance logic -/

/-- `sum(1 for t in pages if t and len(t.strip()) > 30)` — the count of
pages with usable text. -/
def nonEmptyCount (pages : List (List Char)) : Nat :=
  (pages.filter (fun t => !t.isEmpty && decide (30 < (pyStrip t).length))).length

/-- The tier-1 acceptance test of `extract_pdf_text`:
`pages and non_empty >= max(1, int(0.3 * len(pages)))`.
Python evaluates `int(0.3 * k)` in binary64 floating point; for every page
count `k < 2 ^ 48` this equals `⌊3 k / 10⌋` (for `k` a multiple of 10 the
product `float(0.3) * k` rounds to exactly `3k/10`, and otherwise the exact
value `0.3 k` is at distance ≥ 0.1 from every integer while the accumulated
rounding error is below `0.3 k · 2⁻⁵¹ < 0.1`), so the threshold is embedded
as the natural-number floor `3 * pages.length / 10`. -/
def tier1Accepts (pages : List (List Char)) : Bool :=
  !pages.isEmpty && decide (nonEmptyCount pages ≥ max 1 (3 * pages.length / 10))

/-- The tier-2 (pdfminer fallback) acceptance test of `extract_pdf_text`:
`pm_pages and non_empty_pm >= 1`. -/
def tier2Accepts (pm_pages : List (List Char)) : Bool :=
  !pm_pages.isEmpty && decide (nonEmptyCount pm_pages ≥ 1)

/-- `extract_pdf_text` from `rag/ingest.py`, as a function of the page lists
returned by the two extraction backends (`pypdf` tier 1, `pdfminer` tier 2).
Returns `(pages, needs_ocr)`. -/
def extract_pdf_text (pages pm_pages : List (List Char)) :
    List (List Char) × Bool :=
  if tier1Accepts pages then (pages, false)
  else if tier2Accepts pm_pages then (pm_pages, false)
  else ([], true)

/-! ### Chunk records and `build_chunks_for_doc` -/

/-- One row of `data/sources.csv`, the fields `build_chunks_for_doc` and the
file resolver read.  `doc_id` and `title` are kept as character lists because
the resolver lowercases and dissects them. -/
structure SrcRecord where
  doc_id : List Char
  title : List Char
  url : List Char
  vigencia : List Char
deriving DecidableEq, Repr

/-- A discovered raw file: its base name (`Path.stem`), its lowercased
extension (`Path.suffix.lower()`), and the results the external readers and
extraction backends would produce for it (`pypdf` pages, `pdfminer` pages,
decoded textual contents). -/
structure FileEntry where
  stem : List Char
  ext : String
  pdfPages : List (List Char)
  pmPages : List (List Char)
  contents : List Char
deriving DecidableEq, Repr

/-- One chunk record, as assembled by `build_chunks_for_doc`. -/
structure ChunkRow where
  doc_id : List Char
  title : List Char
  page : Option Nat
  url : List Char
  vigencia : List Char
  text : List Char
  source_path : List Char
  needs_ocr : Bool
deriving DecidableEq, Repr

/-- The OCR placeholder row emitted for a `needs_ocr` document. -/
def placeholderRow (row : SrcRecord) (f : FileEntry) : ChunkRow :=
  { doc_id := row.doc_id, title := row.title, page := none,
    url := row.url, vigencia := row.vigencia, text := [],
    source_path := f.stem, needs_ocr := true }

/-- `re.sub(r"<[^>]+>", " ", html)`: every `<`, followed by at least one
non-`>` character, up to the first `>`, is replaced by one space.  A `<`
with no such closing `>` (or immediately followed by `>`) is not a match
and is kept. -/
def stripTags (s : List Char) : List Char :=
  match s with
  | [] => []
  | c :: rest =>
    if c = '<' then
      match h : rest.dropWhile (fun d => d ≠ '>') with
      | [] => c :: stripTags rest
      | _ :: after =>
        if (rest.takeWhile (fun d => d ≠ '>')).isEmpty then c :: stripTags rest
        else ' ' :: stripTags after
    else c :: stripTags rest
termination_by s.length
decreasing_by
  all_goals simp only [List.length_cons]
  all_goals
    first
      | omega
      | (have hle :=
          (List.dropWhile_sublist (fun d : Char => d ≠ '>') (l := rest)).length_le
         rw [h] at hle
         simp only [List.length_cons] at hle
         omega)

/-- The per-page loop of `build_chunks_for_doc`: clean each page, drop pages
whose cleaned text is empty or shorter than 30 characters, and chunk the
survivors with the default window parameters.  Pages are numbered from 1. -/
def pageRows (row : SrcRecord) (f : FileEntry) (i : Nat) (page_text : List Char) :
    List ChunkRow :=
  let pt := clean_text page_text
  if pt.isEmpty || pt.length < 30 then []
  else
    ((chunk_text pt CHUNK_SIZE CHUNK_OVERLAP).getD []).map fun ch =>
      { doc_id := row.doc_id, title := row.title, page := some i,
        url := row.url, vigencia := row.vigencia, text := ch,
        source_path := f.stem, needs_ocr := false }

/-- `build_chunks_for_doc` from `rag/ingest.py`: dispatch on the file
extension, emit a single OCR placeholder row for unreadable PDFs, and
otherwise run the per-page clean/filter/chunk loop.  Unsupported extensions
yield no rows. -/
def build_chunks_for_doc (row : SrcRecord) (f : FileEntry) : List ChunkRow :=
  if f.ext = ".pdf" then
    let (page_texts, needs_ocr) := extract_pdf_text f.pdfPages f.pmPages
    if needs_ocr then
      [{ doc_id := row.doc_id, title := row.title, page := none,
         url := row.url, vigencia := row.vigencia, text := [],
         source_path := f.stem, needs_ocr := true }]
    else
      (page_texts.enumFrom 1).flatMap fun p => pageRows row f p.1 p.2
  else if f.ext = ".txt" ∨ f.ext = ".text" then
    -- extract_txt: decode, clean_text, treat as a single page
    ((([clean_text f.contents] : List (List Char)).enumFrom 1).flatMap
      fun p => pageRows row f p.1 p.2)
  else if f.ext = ".html" ∨ f.ext = ".htm" then
    ((([clean_text (stripTags f.contents)] : List (List Char)).enumFrom 1).flatMap
      fun p => pageRows row f p.1 p.2)
  else []

/-! ### Document-to-file resolution and the main loop -/

/-- ASCII `str.lower()`. -/
def pyLower (s : List Char) : List Char := s.map Char.toLower

/-- Python's substring test `needle in hay`. -/
def strContains (hay needle : List Char) : Bool :=
  hay.tails.any fun suf => needle.isPrefixOf suf

/-- The character class `[a-z0-9]` of the title-key regex. -/
def isAlnumLower (c : Char) : Bool :=
  ('a' ≤ c && c ≤ 'z') || ('0' ≤ c && c ≤ '9')

/-- Scanner for `re.sub(r"[^a-z0-9]+", " ", s)`: each maximal run of
non-alphanumeric characters is replaced by a single space. -/
def subNonAlnumAux (inRun : Bool) (s : List Char) : List Char :=
  match s with
  | [] => []
  | c :: rest =>
    if isAlnumLower c then c :: subNonAlnumAux false rest
    else if inRun then subNonAlnumAux true rest
    else ' ' :: subNonAlnumAux true rest

/-- `re.sub(r"[^a-z0-9]+", " ", s)`. -/
def subNonAlnum (s : List Char) : List Char := subNonAlnumAux false s

/-- `str.split()` (no separator): split on runs of whitespace, discarding
empty pieces.  `acc` holds the characters of the current word, reversed. -/
def pySplitAux (acc : List Char) (s : List Char) : List (List Char) :=
  match s with
  | [] => if acc.isEmpty then [] else [acc.reverse]
  | c :: rest =>
    if isPyWhite c then
      if acc.isEmpty then pySplitAux [] rest
      else acc.reverse :: pySplitAux [] rest
    else pySplitAux (c :: acc) rest

/-- `str.split()`. -/
def pySplit (s : List Char) : List (List Char) := pySplitAux [] s

/-- The title key of the resolver:
`"_".join(re.sub(r"[^a-z0-9]+", " ", title.lower()).split()[:3])`. -/
def titleKey (title : List Char) : List Char :=
  List.intercalate ['_'] ((pySplit (subNonAlnum (pyLower title))).take 3)

/-- Stage-1 match of the resolver: `doc_id.lower() in f.stem.lower()`. -/
def docIdMatch (doc_id : List Char) (f : FileEntry) : Bool :=
  strContains (pyLower f.stem) (pyLower doc_id)

/-- Stage-2 match of the resolver:
`title_key and title_key in f.stem.lower()`. -/
def titleMatch (title : List Char) (f : FileEntry) : Bool :=
  !(titleKey title).isEmpty && strContains (pyLower f.stem) (titleKey title)

/-- The two-stage resolver of `main`: first file whose stem contains the
doc id (case-insensitively); only if none matches, first file whose stem
contains the (non-empty) title key. -/
def resolveFile (doc_id title : List Char) (files : List FileEntry) :
    Option FileEntry :=
  match files.find? (docIdMatch doc_id) with
  | some f => some f
  | none => files.find? (titleMatch title)

/-- The per-record loop of `main`: resolve each record, collect the chunk
rows of resolved documents (in record order) and the doc ids of unresolved
ones into the `missing` report. -/
def processAll (files : List FileEntry) :
    List SrcRecord → List ChunkRow × List (List Char)
  | [] => ([], [])
  | sr :: rest =>
    let acc := processAll files rest
    match resolveFile sr.doc_id sr.title files with
    | none => (acc.1, sr.doc_id :: acc.2)
    | some f => (build_chunks_for_doc sr f ++ acc.1, acc.2)

/-- Outcome of an ingestion run (`main`). -/
inductive MainResult where
  | noRawFiles : MainResult
  | noChunks : MainResult
  | saved : List ChunkRow → List (List Char) → MainResult
deriving DecidableEq, Repr

/-- `main` from `rag/ingest.py`: abort if the raw directory is empty, abort
if the whole run produced zero chunk rows, otherwise persist the table
(`saved rows missing`). -/
def mainRun (records : List SrcRecord) (files : List FileEntry) : MainResult :=
  if files.isEmpty then .noRawFiles
  else
    let acc := processAll files records
    if acc.1.isEmpty then .noChunks
    else .saved acc.1 acc.2

/-! ### Unfolding lemmas for the chunk loop -/

theorem chunkLoop_zero (t : List Char) (size overlap start : Nat) :
    chunkLoop 0 t size overlap start = none := rfl

theorem chunkLoop_succ_stop (f : Nat) (t : List Char) (size overlap start : Nat)
    (h1 : start < t.length) (h2 : t.length ≤ start + size) :
    chunkLoop (f + 1) t size overlap start =
      some [(t.drop start).take (t.length - start)] := by
  have hm : min t.length (start + size) = t.length := by omega
  simp only [chunkLoop, h1, if_true, hm, if_pos rfl]

theorem chunkLoop_succ_step (f : Nat) (t : List Char) (size overlap start : Nat)
    (h1 : start + size < t.length) :
    chunkLoop (f + 1) t size overlap start =
      match chunkLoop f t size overlap (start + size - overlap) with
      | none => none
      | some rest => some ((t.drop start).take size :: rest) := by
  have hstart : start < t.length := by omega
  have hm : min t.length (start + size) = start + size := by omega
  have hne : ¬ (min t.length (start + size) = t.length) := by omega
  simp only [chunkLoop, hstart, if_true, hm, hne, if_false]
  have h3 : start + size - start = size := by omega
  rw [h3]
  rw [if_neg (show ¬ (start + size = t.length) by omega)]

/-- C2 core: a text whose trimmed form fits in one window is returned as a
single chunk. -/
theorem chunk_text_short (T : List Char) (size overlap : Nat)
    (h : (pyStrip T).length ≤ size) :
    chunk_text T size overlap = some [pyStrip T] := by
  simp only [chunk_text, h, if_true]

/-! ### The master lemma for the chunk loop (`overlap < size`) -/

/-- Full description of one terminating run of the `chunk_text` loop:
the result exists, is non-empty, its `i`-th element is the character window
starting at `start + i·(size − overlap)`, every window but the last is full
and ends strictly inside the text, the last window reaches the end of the
text, and the last window start leaves more than `overlap` characters. -/
theorem chunkLoop_sound (t : List Char) (size overlap : Nat) (ho : overlap < size) :
    ∀ fuel start, overlap + start < t.length → t.length - start ≤ fuel →
      ∃ cs, chunkLoop fuel t size overlap start = some cs ∧
        cs ≠ [] ∧
        (∀ i, i < cs.length →
          cs.getD i [] = (t.drop (start + i * (size - overlap))).take size) ∧
        (∀ i, i + 1 < cs.length →
          start + i * (size - overlap) + size < t.length) ∧
        t.length ≤ start + (cs.length - 1) * (size - overlap) + size ∧
        start + (cs.length - 1) * (size - overlap) + overlap < t.length := by
  intro fuel
  induction fuel with
  | zero => intro start h1 h2; omega
  | succ f ih =>
    intro start h1 h2
    have hstart : start < t.length := by omega
    by_cases hfit : t.length ≤ start + size
    · -- last window: the loop emits one clipped chunk and stops
      rw [chunkLoop_succ_stop f t size overlap start hstart hfit]
      refine ⟨[(t.drop start).take (t.length - start)], rfl, by simp, ?_, ?_, ?_, ?_⟩
      · intro i hi
        simp only [List.length_cons, List.length_nil] at hi
        have hi0 : i = 0 := by omega
        subst hi0
        simp only [List.getD_cons_zero, Nat.zero_mul, Nat.add_zero]
        rw [List.take_of_length_le (by simp),
          List.take_of_length_le (by simp; omega)]
      · intro i hi
        simp at hi
      · simpa using hfit
      · simp only [List.length_cons, List.length_nil, Nat.sub_self, Nat.zero_mul]
        omega
    · push_neg at hfit
      rw [chunkLoop_succ_step f t size overlap start hfit]
      have harg : start + size - overlap = start + (size - overlap) := by omega
      rw [harg]
      obtain ⟨cs', hrun, hne, hwin, hfull, hlast, hinv⟩ :=
        ih (start + (size - overlap)) (by omega) (by omega)
      rw [hrun]
      refine ⟨(t.drop start).take size :: cs', rfl, by simp, ?_, ?_, ?_, ?_⟩
      · intro i hi
        match i with
        | 0 => simp
        | j + 1 =>
          have hj : j < cs'.length := by simpa using hi
          have := hwin j hj
          rw [List.getD_cons_succ, this]
          have : start + (size - overlap) + j * (size - overlap) =
              start + (j + 1) * (size - overlap) := by ring
          rw [this]
      · intro i hi
        match i with
        | 0 => simpa using hfit
        | j + 1 =>
          have hj : j + 1 < cs'.length := by simpa using hi
          have := hfull j hj
          have he : start + (size - overlap) + j * (size - overlap) =
              start + (j + 1) * (size - overlap) := by ring
          omega
      · have hpos : 0 < cs'.length := List.length_pos.mpr hne
        obtain ⟨m, hm⟩ : ∃ m, cs'.length = m + 1 := ⟨cs'.length - 1, by omega⟩
        have h5 := hlast
        rw [hm] at h5
        simp only [Nat.add_sub_cancel] at h5
        simp only [List.length_cons, Nat.add_sub_cancel, hm]
        rw [Nat.succ_mul]
        set q := m * (size - overlap) with hq
        omega
      · have hpos : 0 < cs'.length := List.length_pos.mpr hne
        obtain ⟨m, hm⟩ : ∃ m, cs'.length = m + 1 := ⟨cs'.length - 1, by omega⟩
        have h6 := hinv
        rw [hm] at h6
        simp only [Nat.add_sub_cancel] at h6
        simp only [List.length_cons, Nat.add_sub_cancel, hm]
        rw [Nat.succ_mul]
        set q := m * (size - overlap) with hq
        omega

theorem getD_of_lt {α : Type} (l : List α) (n : Nat) (d : α) (h : n < l.length) :
    l.getD n d = l[n] := by
  simp [List.getD_eq_getElem?_getD, List.getElem?_eq_getElem h]

/-- `chunkLoop_sound` instantiated at the call made by `chunk_text` when the
trimmed text is longer than one window. -/
theorem chunk_text_sound (T : List Char) (size overlap : Nat)
    (hov : overlap < size) (hlen : size < (pyStrip T).length) :
    ∃ cs, chunk_text T size overlap = some cs ∧
      cs ≠ [] ∧
      (∀ i, i < cs.length →
        cs.getD i [] = ((pyStrip T).drop (i * (size - overlap))).take size) ∧
      (∀ i, i + 1 < cs.length →
        i * (size - overlap) + size < (pyStrip T).length) ∧
      (pyStrip T).length ≤ (cs.length - 1) * (size - overlap) + size ∧
      (cs.length - 1) * (size - overlap) + overlap < (pyStrip T).length := by
  obtain ⟨cs, hrun, hne, hwin, hfull, hlast, hinv⟩ :=
    chunkLoop_sound (pyStrip T) size overlap hov ((pyStrip T).length + 1) 0
      (by omega) (by omega)
  refine ⟨cs, ?_, hne, ?_, ?_, ?_, ?_⟩
  · simp only [chunk_text]
    rw [if_neg (by omega)]
    exact hrun
  · intro i hi
    simpa using hwin i hi
  · intro i hi
    simpa using hfull i hi
  · simpa using hlast
  · simpa using hinv

/-- Every position from `start` to the end of the text lands inside some
window emitted by the chunk loop. -/
theorem chunkLoop_covers (t : List Char) (size overlap : Nat)
    (ho : overlap < size) :
    ∀ fuel start cs, chunkLoop fuel t size overlap start = some cs →
      ∀ j, start ≤ j → j < t.length →
      ∃ i k, i < cs.length ∧ start + i * (size - overlap) + k = j ∧ k < size := by
  intro fuel
  induction fuel with
  | zero => intro start cs hrun; simp [chunkLoop_zero] at hrun
  | succ f ih =>
    intro start cs hrun j hj1 hj2
    have hstart : start < t.length := by omega
    by_cases hfit : t.length ≤ start + size
    · rw [chunkLoop_succ_stop f t size overlap start hstart hfit] at hrun
      obtain rfl : [(t.drop start).take (t.length - start)] = cs :=
        Option.some.inj hrun
      exact ⟨0, j - start, by simp, by omega, by omega⟩
    · push_neg at hfit
      rw [chunkLoop_succ_step f t size overlap start hfit] at hrun
      rcases hrec : chunkLoop f t size overlap (start + size - overlap) with _ | cs'
      · rw [hrec] at hrun; cases hrun
      · rw [hrec] at hrun
        obtain rfl : (t.drop start).take size :: cs' = cs := Option.some.inj hrun
        by_cases hin : j < start + size
        · exact ⟨0, j - start, by simp, by omega, by omega⟩
        · push_neg at hin
          obtain ⟨i', k', hi', heq', hk'⟩ :=
            ih (start + size - overlap) cs' hrec j (by omega) hj2
          refine ⟨i' + 1, k', by simpa using hi', ?_, hk'⟩
          have hconv : start + size - overlap = start + (size - overlap) := by omega
          rw [hconv] at heq'
          rw [Nat.add_one_mul]
          set q := i' * (size - overlap) with hq
          omega

/-- `pyStrip` is the identity on an all-`'a'` text. -/
theorem pyStrip_replicate_a (n : Nat) :
    pyStrip (List.replicate n 'a') = List.replicate n 'a' := by
  unfold pyStrip
  rw [List.dropWhile_replicate, if_neg (by decide), List.reverse_replicate,
    List.dropWhile_replicate, if_neg (by decide), List.reverse_replicate]

/-- The concrete end-to-end chunking scenario: a 4500-character text with the
default parameters yields exactly the windows `[0:3800]` and `[3300:4500]`. -/
theorem chunk_text_4500 :
    chunk_text (List.replicate 4500 'a') 3800 500 =
      some [List.replicate 3800 'a', List.replicate 1200 'a'] := by
  have hps := pyStrip_replicate_a 4500
  obtain ⟨cs, hrun, hne, hwin, hfull, hlast, hinv⟩ :=
    chunk_text_sound (List.replicate 4500 'a') 3800 500 (by omega)
      (by rw [hps, List.length_replicate]; omega)
  rw [hps] at hwin hlast hinv
  simp only [List.length_replicate] at hlast hinv
  have hlen2 : cs.length = 2 := by omega
  obtain ⟨c0, c1, hcs⟩ := List.length_eq_two.mp hlen2
  subst hcs
  have h0 := hwin 0 (by simp)
  have h1 := hwin 1 (by simp)
  simp only [List.getD_cons_zero, List.getD_cons_succ, Nat.zero_mul,
    Nat.one_mul, List.drop_replicate, List.take_replicate] at h0 h1
  rw [hrun, h0, h1]
  norm_num

/-! ### Claim C1 -/

/-- C1: for every text whose trimmed form is longer than `size`, with
`0 ≤ overlap < size`, `chunk_text` emits the windows starting at 0 and
advancing by `size − overlap`; every character of the trimmed text appears
(at its position) in at least one returned chunk; consecutive chunks overlap
by exactly `overlap` characters; and in particular a 4500-character text
with `size = 3800`, `overlap = 500` yields exactly the two chunks
`T[0:3800]` and `T[3300:4500]`. -/
theorem C1_chunk_window_walk (T : List Char) (size overlap : Nat)
    (hov : overlap < size) (hlen : size < (pyStrip T).length) :
    ∃ cs, chunk_text T size overlap = some cs ∧
      cs ≠ [] ∧
      (∀ i, i < cs.length →
        cs.getD i [] = ((pyStrip T).drop (i * (size - overlap))).take size) ∧
      (∀ j, j < (pyStrip T).length → ∃ i k,
        i < cs.length ∧ k < (cs.getD i []).length ∧
        i * (size - overlap) + k = j ∧
        (cs.getD i []).getD k ' ' = (pyStrip T).getD j ' ') ∧
      (∀ i, i + 1 < cs.length →
        (cs.getD i []).drop (size - overlap) = (cs.getD (i + 1) []).take overlap ∧
        ((cs.getD (i + 1) []).take overlap).length = overlap) ∧
      chunk_text (List.replicate 4500 'a') 3800 500 =
        some [List.replicate 3800 'a', List.replicate 1200 'a'] := by
  obtain ⟨cs, hrun, hne, hwin, hfull, hlast, hinv⟩ :=
    chunk_text_sound T size overlap hov hlen
  refine ⟨cs, hrun, hne, hwin, ?_, ?_, chunk_text_4500⟩
  · -- coverage of every position of the trimmed text
    intro j hj
    have hrun' :
        chunkLoop ((pyStrip T).length + 1) (pyStrip T) size overlap 0 = some cs := by
      have hx := hrun
      simp only [chunk_text] at hx
      rw [if_neg (by omega)] at hx
      exact hx
    obtain ⟨i, k, hi, heq, hk⟩ :=
      chunkLoop_covers (pyStrip T) size overlap hov _ 0 cs hrun' j (by omega) hj
    simp only [Nat.zero_add] at heq
    subst heq
    have hwini := hwin i hi
    have hkb : k < (cs.getD i []).length := by
      rw [hwini]
      simp only [List.length_take, List.length_drop]
      omega
    refine ⟨i, k, hi, hkb, rfl, ?_⟩
    rw [hwini] at hkb ⊢
    rw [getD_of_lt _ _ _ hkb, getD_of_lt _ _ _ hj]
    rw [List.getElem_take, List.getElem_drop]
  · -- consecutive chunks overlap by exactly `overlap` characters
    intro i hi
    have h1 := hwin i (by omega)
    have h2 := hwin (i + 1) hi
    have hfl := hfull i hi
    have hmono : (i + 1) * (size - overlap) ≤ (cs.length - 1) * (size - overlap) :=
      Nat.mul_le_mul_right _ (by omega)
    constructor
    · rw [h1, h2]
      rw [List.drop_take, List.drop_drop, List.take_take]
      have e1 : size - (size - overlap) = overlap := by omega
      have e2 : min overlap size = overlap := by omega
      have e3 : i * (size - overlap) + (size - overlap) =
          (i + 1) * (size - overlap) := (Nat.add_one_mul _ _).symm
      rw [e1, e2, e3]
    · rw [h2, List.take_take]
      simp only [List.length_take, List.length_drop]
      omega

/-- C1 witness: the concrete 4500-character scenario, obtained by applying
`C1_chunk_window_walk` at `T = 'a' × 4500`, `size = 3800`, `overlap = 500`. -/
theorem C1_chunk_window_walk_witness :
    chunk_text (List.replicate 4500 'a') 3800 500 =
      some [List.replicate 3800 'a', List.replicate 1200 'a'] := by
  obtain ⟨cs, -, -, -, -, -, hconc⟩ :=
    C1_chunk_window_walk (List.replicate 4500 'a') 3800 500 (by omega)
      (by rw [pyStrip_replicate_a, List.length_replicate]; omega)
  exact hconc

/-! ### Claim C2 -/

/-- C2: a text whose trimmed length is at most `size` is returned as the
single-element sequence containing the trimmed text. -/
theorem C2_single_chunk (T : List Char) (size overlap : Nat)
    (h : (pyStrip T).length ≤ size) :
    chunk_text T size overlap = some [pyStrip T] :=
  chunk_text_short T size overlap h

/-- C2 witness: a concrete short text. -/
theorem C2_single_chunk_witness :
    chunk_text [' ', 'a', 'b', ' '] 3800 500 = some [['a', 'b']] := by
  have h := C2_single_chunk [' ', 'a', 'b', ' '] 3800 500 (by decide)
  simpa using h

/-! ### Claim C3 -/

/-- C3 (code bug evidence): with `overlap ≥ size` — here `size = overlap = 2`
on the 4-character text `"aaaa"` — `chunk_text` performs no defensive check:
the loop start is recomputed to the same position forever, so the loop
exhausts every fuel bound (the Python loop never terminates), and no error
is raised. -/
theorem C3_no_rejection_loop_diverges :
    (∀ fuel, chunkLoop fuel ['a', 'a', 'a', 'a'] 2 2 0 = none) ∧
    chunk_text ['a', 'a', 'a', 'a'] 2 2 = none := by
  have key : ∀ fuel, chunkLoop fuel ['a', 'a', 'a', 'a'] 2 2 0 = none := by
    intro fuel
    induction fuel with
    | zero => rfl
    | succ n ih => simp [chunkLoop, ih]
  exact ⟨key, by decide⟩

/-! ### Claim C4 -/

/-- C4 counterexample: on input `" "` (empty after trimming) `chunk_text`
does not return the empty sequence; it returns the one-element sequence
containing the empty string. -/
theorem C4_counterexample :
    pyStrip [' '] = [] ∧
    chunk_text [' '] 3800 500 ≠ some [] ∧
    chunk_text [' '] 3800 500 = some [[]] := by decide

/-- C4 (amended): for every input that is empty after trimming, `chunk_text`
returns the single-element sequence containing the empty string (the
`n ≤ size` branch with the trimmed text). -/
theorem C4_empty_input (T : List Char) (size overlap : Nat)
    (h : pyStrip T = []) :
    chunk_text T size overlap = some [[]] := by
  have h0 : (pyStrip T).length ≤ size := by rw [h]; simp
  have := chunk_text_short T size overlap h0
  rw [h] at this
  exact this

/-- C4 witness: the amended claim at the concrete input `" "`. -/
theorem C4_empty_input_witness :
    pyStrip [' '] = [] ∧ chunk_text [' '] 3800 500 = some [[]] :=
  ⟨by decide, C4_empty_input [' '] 3800 500 (by decide)⟩

/-! ### Claim C5 -/

/-- C5 counterexample: five tier-1 pages of which exactly one is usable.
The code accepts tier 1 (`1 ≥ max(1, int(0.3·5)) = max(1, 1) = 1`), but the
claim's exact real threshold demands `1 ≥ max(1, 1.5) = 1.5`, which is
false; hence acceptance is not equivalent to the exact-product rule. -/
theorem C5_counterexample :
    tier1Accepts (List.replicate 31 'a' :: [[], [], [], []]) = true ∧
    nonEmptyCount (List.replicate 31 'a' :: [[], [], [], []]) = 1 ∧
    (List.replicate 31 'a' :: [[], [], [], []] : List (List Char)).length = 5 ∧
    ¬ ((1 : ℚ) ≥ max 1 ((3 : ℚ) / 10 * 5)) := by
  refine ⟨by decide, by decide, by decide, ?_⟩
  norm_num

/-- The tier-1 acceptance test, characterised by the truncated threshold. -/
theorem tier1Accepts_iff (pages : List (List Char)) :
    tier1Accepts pages = true ↔
      max 1 (3 * pages.length / 10) ≤ nonEmptyCount pages := by
  cases pages with
  | nil => simp [tier1Accepts, nonEmptyCount]
  | cons p ps => simp [tier1Accepts]

/-- C5 (amended): tier-1 results are accepted **iff**
`non_empty ≥ max(1, int(0.3 · total_pages))`, where the threshold is the
*truncated* product `⌊3·total/10⌋` (Python's `int(0.3*len(pages))`), not the
exact real product.  The guard `pages ≠ []` of the source is subsumed:
`non_empty ≥ 1` already forces a non-empty page list. -/
theorem C5_tier1_threshold (pages : List (List Char)) :
    tier1Accepts pages = true ↔
      max 1 (3 * pages.length / 10) ≤ nonEmptyCount pages :=
  tier1Accepts_iff pages

/-! ### Invariants of the normaliser (towards C8)

Two linear scanners recognise the normal forms produced by the two
`re.sub` passes: `stRunsShort prev l` holds when `l`, scanned after a
character whose `[ \t]`-status is `prev`, contains no two adjacent
space/tab characters; `nlRunsShort k l` holds when `l`, scanned after `k`
pending newlines, contains no run of three or more newlines. -/

def stRunsShort (prev : Bool) (s : List Char) : Bool :=
  match s with
  | [] => true
  | c :: rest =>
    if isST c then !prev && stRunsShort true rest
    else stRunsShort false rest

def nlRunsShort (k : Nat) (s : List Char) : Bool :=
  match s with
  | [] => true
  | c :: rest =>
    if c = '\n' then decide (k + 1 ≤ 2) && nlRunsShort (k + 1) rest
    else nlRunsShort 0 rest

theorem stRunsShort_of_all_nonST (l : List Char)
    (h : ∀ c ∈ l, isST c = false) : ∀ prev, stRunsShort prev l = true := by
  induction l with
  | nil => intro prev; rfl
  | cons c rest ih =>
    intro prev
    have hc : isST c = false := h c (by simp)
    simp only [stRunsShort, hc, if_false, Bool.false_eq_true]
    exact ih (fun d hd => h d (by simp [hd])) false

theorem stRunsShort_mono (l : List Char) :
    stRunsShort true l = true → stRunsShort false l = true := by
  cases l with
  | nil => intro _; rfl
  | cons c rest =>
    by_cases hc : isST c
    · simp [stRunsShort, hc]
    · simp [stRunsShort, hc]

theorem stRunsShort_mono_any (l : List Char) (prev : Bool) :
    stRunsShort prev l = true → stRunsShort false l = true := by
  cases prev with
  | true => exact stRunsShort_mono l
  | false => exact id

theorem stRunsShort_tail (x : Char) (l : List Char)
    (h : stRunsShort false (x :: l) = true) : stRunsShort false l = true := by
  by_cases hx : isST x
  · simp only [stRunsShort, hx, if_true, Bool.and_eq_true] at h
    exact stRunsShort_mono l h.2
  · simpa [stRunsShort, hx] using h

theorem stRunsShort_take (l : List Char) :
    ∀ n prev, stRunsShort prev l = true → stRunsShort prev (l.take n) = true := by
  induction l with
  | nil => intro n prev _; simp [List.take_nil]; rfl
  | cons c rest ih =>
    intro n prev h
    cases n with
    | zero => rfl
    | succ m =>
      simp only [List.take_succ_cons]
      by_cases hc : isST c
      · simp only [stRunsShort, hc, if_true, Bool.and_eq_true] at h ⊢
        exact ⟨h.1, ih m true h.2⟩
      · simp only [stRunsShort, hc, if_false] at h ⊢
        exact ih m false h

theorem stRunsShort_drop (l : List Char) :
    ∀ n, stRunsShort false l = true → stRunsShort false (l.drop n) = true := by
  induction l with
  | nil => intro n _; simp [List.drop_nil]; rfl
  | cons c rest ih =>
    intro n h
    cases n with
    | zero => exact h
    | succ m => exact ih m (stRunsShort_tail c rest h)

theorem nlRunsShort_mono (l : List Char) :
    ∀ k j, j ≤ k → nlRunsShort k l = true → nlRunsShort j l = true := by
  induction l with
  | nil => intro k j _ _; rfl
  | cons c rest ih =>
    intro k j hjk h
    by_cases hc : c = '\n'
    · simp only [nlRunsShort, hc, if_true, Bool.and_eq_true,
        decide_eq_true_eq] at h ⊢
      exact ⟨by omega, ih (k + 1) (j + 1) (by omega) h.2⟩
    · simpa [nlRunsShort, hc] using h

theorem nlRunsShort_tail (x : Char) (l : List Char)
    (h : nlRunsShort 0 (x :: l) = true) : nlRunsShort 0 l = true := by
  by_cases hx : x = '\n'
  · simp only [nlRunsShort, hx, if_true, Bool.and_eq_true] at h
    exact nlRunsShort_mono l 1 0 (by omega) h.2
  · simpa [nlRunsShort, hx] using h

theorem nlRunsShort_take (l : List Char) :
    ∀ n k, nlRunsShort k l = true → nlRunsShort k (l.take n) = true := by
  induction l with
  | nil => intro n k _; simp [List.take_nil]; rfl
  | cons c rest ih =>
    intro n k h
    cases n with
    | zero => rfl
    | succ m =>
      simp only [List.take_succ_cons]
      by_cases hc : c = '\n'
      · simp only [nlRunsShort, hc, if_true, Bool.and_eq_true] at h ⊢
        exact ⟨h.1, ih m (k + 1) h.2⟩
      · simp only [nlRunsShort, hc, if_false] at h ⊢
        exact ih m 0 h

theorem nlRunsShort_drop (l : List Char) :
    ∀ n, nlRunsShort 0 l = true → nlRunsShort 0 (l.drop n) = true := by
  induction l with
  | nil => intro n _; simp [List.drop_nil]; rfl
  | cons c rest ih =>
    intro n h
    cases n with
    | zero => exact h
    | succ m => exact ih m (nlRunsShort_tail c rest h)

/-! Facts about `collapseSPAux`. -/

theorem collapseSPAux_mem (s : List Char) :
    ∀ b c, c ∈ collapseSPAux b s → c = ' ' ∨ c ∈ s := by
  induction s with
  | nil => intro b c h; simp [collapseSPAux] at h
  | cons x rest ih =>
    intro b c h
    by_cases hx : isST x
    · simp only [collapseSPAux, hx, if_true] at h
      cases b with
      | true =>
        rcases ih true c h with h1 | h1
        · exact Or.inl h1
        · exact Or.inr (by simp [h1])
      | false =>
        rcases List.mem_cons.mp h with h1 | h1
        · exact Or.inl h1
        · rcases ih true c h1 with h2 | h2
          · exact Or.inl h2
          · exact Or.inr (by simp [h2])
    · simp only [collapseSPAux, hx, if_false] at h
      rcases List.mem_cons.mp h with h1 | h1
      · exact Or.inr (by simp [h1])
      · rcases ih false c h1 with h2 | h2
        · exact Or.inl h2
        · exact Or.inr (by simp [h2])

theorem collapseSPAux_no_tab (s : List Char) :
    ∀ b, '\t' ∉ collapseSPAux b s := by
  induction s with
  | nil => intro b h; simp [collapseSPAux] at h
  | cons x rest ih =>
    intro b h
    by_cases hx : isST x
    · simp only [collapseSPAux, hx, if_true] at h
      cases b with
      | true => exact ih true h
      | false =>
        rcases List.mem_cons.mp h with h1 | h1
        · exact absurd h1 (by decide)
        · exact ih true h1
    · simp only [collapseSPAux, hx, Bool.false_eq_true, if_false] at h
      rcases List.mem_cons.mp h with h1 | h1
      · rw [← h1] at hx; exact hx (by decide)
      · exact ih false h1

theorem collapseSPAux_runs (s : List Char) :
    (∀ prev, stRunsShort prev (collapseSPAux true s) = true) ∧
    stRunsShort false (collapseSPAux false s) = true := by
  induction s with
  | nil => exact ⟨fun _ => rfl, rfl⟩
  | cons x rest ih =>
    by_cases hx : isST x
    · refine ⟨fun prev => ?_, ?_⟩
      · simp only [collapseSPAux, hx, if_true]
        exact ih.1 prev
      · simp only [collapseSPAux, hx, if_true]
        have hst : isST ' ' = true := by decide
        simp only [stRunsShort, hst, if_true, Bool.not_false, Bool.true_and]
        exact ih.1 true
    · refine ⟨fun prev => ?_, ?_⟩ <;>
      · simp only [collapseSPAux, hx, if_false, stRunsShort,
          Bool.false_eq_true]
        exact ih.2

theorem collapseSPAux_id (s : List Char) (htab : '\t' ∉ s) :
    (stRunsShort false s = true → collapseSPAux false s = s) ∧
    (stRunsShort true s = true → collapseSPAux true s = s) := by
  induction s with
  | nil => exact ⟨fun _ => rfl, fun _ => rfl⟩
  | cons x rest ih =>
    have htr : '\t' ∉ rest := fun h => htab (by simp [h])
    have hxt : x ≠ '\t' := fun h => htab (by simp [h])
    obtain ⟨ihf, iht⟩ := ih htr
    by_cases hx : isST x
    · have hxsp : x = ' ' := by
        simp only [isST, Bool.or_eq_true, decide_eq_true_eq] at hx
        rcases hx with h | h
        · exact h
        · exact absurd h hxt
      subst hxsp
      constructor
      · intro h
        simp only [stRunsShort, hx, if_true, Bool.not_false, Bool.true_and] at h
        simp [collapseSPAux, iht h, show isST ' ' = true from rfl]
      · intro h
        simp only [stRunsShort, hx, if_true, Bool.not_true, Bool.false_and] at h
        cases h
    · constructor <;>
      · intro h
        simp only [stRunsShort, hx, Bool.false_eq_true, if_false] at h
        simp [collapseSPAux, hx, ihf h]

/-! Facts about `collapseNLAux`. -/

theorem nlBlock_zero : nlBlock 0 = [] := rfl

theorem nlBlock_one : nlBlock 1 = ['\n'] := rfl

theorem nlBlock_two : nlBlock 2 = ['\n', '\n'] := rfl

theorem nlBlock_big (p : Nat) (h : 3 ≤ p) : nlBlock p = ['\n', '\n'] := by
  simp [nlBlock, h]

theorem nlBlock_all_nl (p : Nat) : ∀ c ∈ nlBlock p, c = '\n' := by
  intro c hc
  by_cases h : 3 ≤ p
  · rw [nlBlock_big p h] at hc
    simpa using hc
  · simp only [nlBlock, h, if_false] at hc
    exact List.eq_of_mem_replicate hc

theorem nlBlock_head (p : Nat) (h : 1 ≤ p) : ∃ r, nlBlock p = '\n' :: r := by
  by_cases h3 : 3 ≤ p
  · exact ⟨['\n'], nlBlock_big p h3⟩
  · obtain ⟨q, rfl⟩ : ∃ q, p = q + 1 := ⟨p - 1, by omega⟩
    exact ⟨List.replicate q '\n', by simp [nlBlock, h3, List.replicate_succ]⟩

theorem collapseNLAux_mem (s : List Char) :
    ∀ p c, c ∈ collapseNLAux p s → c = '\n' ∨ c ∈ s := by
  induction s with
  | nil =>
    intro p c h
    simp only [collapseNLAux] at h
    exact Or.inl (nlBlock_all_nl p c h)
  | cons x rest ih =>
    intro p c h
    by_cases hx : x = '\n'
    · simp only [collapseNLAux, hx, if_true] at h
      rcases ih _ c h with h1 | h1
      · exact Or.inl h1
      · exact Or.inr (by simp [h1])
    · simp only [collapseNLAux, hx, if_false] at h
      rcases List.mem_append.mp h with h1 | h1
      · exact Or.inl (nlBlock_all_nl p c h1)
      · rcases List.mem_cons.mp h1 with h2 | h2
        · exact Or.inr (by simp [h2])
        · rcases ih 0 c h2 with h3 | h3
          · exact Or.inl h3
          · exact Or.inr (by simp [h3])

theorem collapseNLAux_head (s : List Char) :
    ∀ p, 1 ≤ p → ∃ r, collapseNLAux p s = '\n' :: r := by
  induction s with
  | nil =>
    intro p hp
    exact (nlBlock_head p hp).imp fun r hr => by simp [collapseNLAux, hr]
  | cons x rest ih =>
    intro p hp
    by_cases hx : x = '\n'
    · obtain ⟨r, hr⟩ := ih (min (p + 1) 3) (by omega)
      exact ⟨r, by simp [collapseNLAux, hx, hr]⟩
    · obtain ⟨r, hr⟩ := nlBlock_head p hp
      exact ⟨r ++ x :: collapseNLAux 0 rest, by simp [collapseNLAux, hx, hr]⟩

theorem isST_nl : isST '\n' = false := rfl

theorem collapseNLAux_runsST (s : List Char) :
    ∀ prev p, stRunsShort prev s = true →
      stRunsShort prev (collapseNLAux p s) = true := by
  induction s with
  | nil =>
    intro prev p _
    exact stRunsShort_of_all_nonST _
      (fun c hc => by rw [nlBlock_all_nl p c hc]; rfl) prev
  | cons x rest ih =>
    intro prev p h
    by_cases hx : x = '\n'
    · subst hx
      simp only [stRunsShort, isST_nl, Bool.false_eq_true, if_false] at h
      simp only [collapseNLAux, if_pos rfl]
      obtain ⟨r, hr⟩ := collapseNLAux_head rest (min (p + 1) 3) (by omega)
      have hIH := ih false (min (p + 1) 3) h
      rw [hr] at hIH ⊢
      simp only [stRunsShort, isST_nl, Bool.false_eq_true, if_false] at hIH ⊢
      exact hIH
    · simp only [collapseNLAux, hx, if_false]
      -- scan the flushed newline block, then `x`, then the recursive output
      have hblock : ∀ m : List Char, ∀ pv,
          stRunsShort pv m = true → stRunsShort pv (nlBlock p ++ m) = true := by
        intro m pv hm
        by_cases h3 : 3 ≤ p
        · rw [nlBlock_big p h3]
          simp only [List.cons_append, List.nil_append, stRunsShort, isST_nl,
            Bool.false_eq_true, if_false]
          exact stRunsShort_mono_any m pv hm
        · interval_cases p
          · simpa [nlBlock_zero] using hm
          · rw [nlBlock_one]
            simp only [List.cons_append, List.nil_append, stRunsShort, isST_nl,
              Bool.false_eq_true, if_false]
            exact stRunsShort_mono_any m pv hm
          · rw [nlBlock_two]
            simp only [List.cons_append, List.nil_append, stRunsShort, isST_nl,
              Bool.false_eq_true, if_false]
            exact stRunsShort_mono_any m pv hm
      by_cases hst : isST x
      · simp only [stRunsShort, hst, if_true, Bool.and_eq_true,
          Bool.not_eq_true'] at h
        apply hblock
        simp only [stRunsShort, hst, if_true, h.1, Bool.not_false, Bool.true_and]
        exact ih true 0 h.2
      · simp only [stRunsShort, hst, Bool.false_eq_true, if_false] at h
        apply hblock
        simp only [stRunsShort, hst, Bool.false_eq_true, if_false]
        exact ih false 0 h

theorem collapseNLAux_runsNL (s : List Char) :
    ∀ p, nlRunsShort 0 (collapseNLAux p s) = true := by
  induction s with
  | nil =>
    intro p
    by_cases h3 : 3 ≤ p
    · simp [collapseNLAux, nlBlock_big p h3, nlRunsShort]
    · interval_cases p
      · rfl
      · rfl
      · rfl
  | cons x rest ih =>
    intro p
    by_cases hx : x = '\n'
    · simp only [collapseNLAux, hx, if_true]
      exact ih _
    · simp only [collapseNLAux, hx, if_false]
      have hrec : nlRunsShort 0 (x :: collapseNLAux 0 rest) = true := by
        simp only [nlRunsShort, hx, if_false]
        exact ih 0
      by_cases h3 : 3 ≤ p
      · rw [nlBlock_big p h3]
        simp only [List.cons_append, List.nil_append, nlRunsShort,
          if_true, Bool.and_eq_true, decide_eq_true_eq]
        refine ⟨by omega, by omega, ?_⟩
        simp only [nlRunsShort, hx, if_false]
        exact ih 0
      · interval_cases p
        · simpa [nlBlock_zero] using hrec
        · rw [nlBlock_one]
          simp only [List.cons_append, List.nil_append, nlRunsShort,
            if_true, Bool.and_eq_true, decide_eq_true_eq]
          refine ⟨by omega, ?_⟩
          simp only [nlRunsShort, hx, if_false]
          exact ih 0
        · rw [nlBlock_two]
          simp only [List.cons_append, List.nil_append, nlRunsShort,
            if_true, Bool.and_eq_true, decide_eq_true_eq]
          refine ⟨by omega, by omega, ?_⟩
          simp only [nlRunsShort, hx, if_false]
          exact ih 0

theorem collapseNLAux_id (s : List Char) :
    ∀ p, p ≤ 2 → nlRunsShort p s = true →
      collapseNLAux p s = List.replicate p '\n' ++ s := by
  induction s with
  | nil =>
    intro p hp _
    simp [collapseNLAux, nlBlock, show ¬ (3 ≤ p) by omega]
  | cons x rest ih =>
    intro p hp h
    by_cases hx : x = '\n'
    · subst hx
      simp [nlRunsShort] at h
      have hmin : min (p + 1) 3 = p + 1 := by omega
      simp only [collapseNLAux]
      rw [if_pos trivial, hmin]
      rw [ih (p + 1) (by omega) h.2]
      rw [List.replicate_succ' p '\n']
      simp
    · simp only [nlRunsShort, hx, if_false] at h
      simp only [collapseNLAux, hx, if_false]
      rw [ih 0 (by omega) h]
      simp only [List.replicate_zero, List.nil_append]
      have hbl : nlBlock p = List.replicate p '\n' := by
        simp [nlBlock, show ¬ (3 ≤ p) by omega]
      rw [hbl]

/-! Facts about `mapCR` and `pyStrip`. -/

theorem mapCR_no_cr (s : List Char) : ∀ c ∈ mapCR s, c ≠ '\r' := by
  intro c hc
  obtain ⟨a, _, ha⟩ := List.mem_map.mp hc
  by_cases h : a = '\r'
  · simp [h] at ha; simp [← ha]
  · simp [h] at ha; simp [← ha]; exact h

theorem mapCR_id (s : List Char) : (∀ c ∈ s, c ≠ '\r') → mapCR s = s := by
  induction s with
  | nil => intro _; rfl
  | cons c rest ih =>
    intro h
    have hc : c ≠ '\r' := h c (by simp)
    have hr := ih (fun d hd => h d (by simp [hd]))
    simp only [mapCR, List.map_cons, if_neg hc] at hr ⊢
    rw [hr]

theorem dropWhile_dropWhile_self {α : Type} (p : α → Bool) (l : List α) :
    (l.dropWhile p).dropWhile p = l.dropWhile p := by
  induction l with
  | nil => rfl
  | cons c rest ih =>
    by_cases hc : p c
    · simp only [List.dropWhile_cons, hc, if_true]
      exact ih
    · simp only [List.dropWhile_cons, hc, Bool.false_eq_true, if_false]

/-- The right-strip half of `pyStrip`. -/
def rstrip (s : List Char) : List Char :=
  (s.reverse.dropWhile isPyWhite).reverse

theorem pyStrip_as_rstrip (s : List Char) :
    pyStrip s = rstrip (s.dropWhile isPyWhite) := rfl

theorem rstrip_rstrip (s : List Char) : rstrip (rstrip s) = rstrip s := by
  unfold rstrip
  rw [List.reverse_reverse, dropWhile_dropWhile_self]

theorem rstrip_prefix (s : List Char) : ∃ t, rstrip s ++ t = s := by
  obtain ⟨t, ht⟩ := List.dropWhile_suffix (l := s.reverse) isPyWhite
  refine ⟨t.reverse, ?_⟩
  have h2 := congrArg List.reverse ht
  rw [List.reverse_append, List.reverse_reverse] at h2
  exact h2

theorem rstrip_mem (s : List Char) : ∀ c ∈ rstrip s, c ∈ s := by
  intro c hc
  obtain ⟨t, ht⟩ := rstrip_prefix s
  rw [← ht]
  exact List.mem_append_left t hc

theorem dropWhile_fixed_of_rstrip (s : List Char)
    (hs : s.dropWhile isPyWhite = s) :
    (rstrip s).dropWhile isPyWhite = rstrip s := by
  obtain ⟨t, ht⟩ := rstrip_prefix s
  cases h0 : rstrip s with
  | nil => rfl
  | cons d r =>
    rw [h0] at ht
    have hsd : s = d :: (r ++ t) := by rw [← ht]; simp
    have hpd : isPyWhite d = false := by
      by_contra hcon
      have hpd' : isPyWhite d = true := by
        cases hdd : isPyWhite d with
        | false => exact absurd hdd hcon
        | true => rfl
      have hlen := (List.dropWhile_sublist (l := r ++ t) isPyWhite).length_le
      rw [hsd] at hs
      simp only [List.dropWhile_cons, hpd', if_true] at hs
      have hlc := congrArg List.length hs
      simp at hlc hlen
      omega
    simp only [List.dropWhile_cons, hpd, Bool.false_eq_true, if_false]

/-- `str.strip()` is idempotent. -/
theorem pyStrip_idem (s : List Char) : pyStrip (pyStrip s) = pyStrip s := by
  rw [pyStrip_as_rstrip, pyStrip_as_rstrip]
  rw [dropWhile_fixed_of_rstrip (s.dropWhile isPyWhite)
    (dropWhile_dropWhile_self isPyWhite s)]
  exact rstrip_rstrip _

theorem pyStrip_mem (s : List Char) : ∀ c ∈ pyStrip s, c ∈ s := by
  intro c hc
  rw [pyStrip_as_rstrip] at hc
  exact (List.dropWhile_sublist isPyWhite).subset (rstrip_mem _ c hc)

/-- `pyStrip s` is an initial segment of `s.dropWhile isPyWhite`. -/
theorem pyStrip_take_form (s : List Char) :
    ∃ k, pyStrip s = (s.dropWhile isPyWhite).take k := by
  obtain ⟨t, ht⟩ := rstrip_prefix (s.dropWhile isPyWhite)
  refine ⟨(rstrip (s.dropWhile isPyWhite)).length, ?_⟩
  rw [pyStrip_as_rstrip]
  conv_lhs => rw [← List.take_left (rstrip (s.dropWhile isPyWhite)) t]
  rw [ht]

theorem stRunsShort_dropWhile (l : List Char) (q : Char → Bool) :
    stRunsShort false l = true → stRunsShort false (l.dropWhile q) = true := by
  induction l with
  | nil => intro _; rfl
  | cons c rest ih =>
    intro h
    by_cases hc : q c
    · simp only [List.dropWhile_cons, hc, if_true]
      exact ih (stRunsShort_tail c rest h)
    · simpa only [List.dropWhile_cons, hc, Bool.false_eq_true, if_false] using h

theorem nlRunsShort_dropWhile (l : List Char) (q : Char → Bool) :
    nlRunsShort 0 l = true → nlRunsShort 0 (l.dropWhile q) = true := by
  induction l with
  | nil => intro _; rfl
  | cons c rest ih =>
    intro h
    by_cases hc : q c
    · simp only [List.dropWhile_cons, hc, if_true]
      exact ih (nlRunsShort_tail c rest h)
    · simpa only [List.dropWhile_cons, hc, Bool.false_eq_true, if_false] using h

theorem stRunsShort_pyStrip (l : List Char)
    (h : stRunsShort false l = true) :
    stRunsShort false (pyStrip l) = true := by
  obtain ⟨k, hk⟩ := pyStrip_take_form l
  rw [hk]
  exact stRunsShort_take _ k false (stRunsShort_dropWhile l isPyWhite h)

theorem nlRunsShort_pyStrip (l : List Char)
    (h : nlRunsShort 0 l = true) :
    nlRunsShort 0 (pyStrip l) = true := by
  obtain ⟨k, hk⟩ := pyStrip_take_form l
  rw [hk]
  exact nlRunsShort_take _ k 0 (nlRunsShort_dropWhile l isPyWhite h)

/-! ### Claim C8 -/

/-- C8: the normaliser `clean_text` is idempotent.  The output of one pass
contains no carriage return, no tab, no two adjacent spaces/tabs and no run
of three or more newlines, and is already stripped — so every stage of a
second pass is the identity. -/
theorem C8_clean_text_idempotent (s : List Char) :
    clean_text (clean_text s) = clean_text s := by
  have hzdef : clean_text s = pyStrip (collapseNL (collapseSP (mapCR s))) := rfl
  set z := clean_text s with hz
  -- characters of z
  have hmem : ∀ c ∈ z, c = '\n' ∨ c = ' ' ∨ c ∈ mapCR s := by
    intro c hc
    rw [hzdef] at hc
    have h1 := pyStrip_mem _ c hc
    rcases collapseNLAux_mem _ 0 c h1 with h2 | h2
    · exact Or.inl h2
    · rcases collapseSPAux_mem _ false c h2 with h3 | h3
      · exact Or.inr (Or.inl h3)
      · exact Or.inr (Or.inr h3)
  have hnocr : ∀ c ∈ z, c ≠ '\r' := by
    intro c hc
    rcases hmem c hc with h1 | h1 | h1
    · rw [h1]; decide
    · rw [h1]; decide
    · exact mapCR_no_cr s c h1
  have hnotab : '\t' ∉ z := by
    intro hc
    rw [hzdef] at hc
    have h1 := pyStrip_mem _ '\t' hc
    rcases collapseNLAux_mem _ 0 '\t' h1 with h2 | h2
    · exact absurd h2 (by decide)
    · exact collapseSPAux_no_tab _ false h2
  have hst : stRunsShort false z = true := by
    rw [hzdef]
    apply stRunsShort_pyStrip
    exact collapseNLAux_runsST _ false 0 (collapseSPAux_runs (mapCR s)).2
  have hnl : nlRunsShort 0 z = true := by
    rw [hzdef]
    exact nlRunsShort_pyStrip _ (collapseNLAux_runsNL _ 0)
  -- the second pass is the identity on z
  show pyStrip (collapseNL (collapseSP (mapCR z))) = z
  rw [mapCR_id z hnocr]
  have hsp : collapseSP z = z := (collapseSPAux_id z hnotab).1 hst
  rw [show collapseSP z = collapseSPAux false z from rfl] at hsp
  rw [show collapseSP z = collapseSPAux false z from rfl, hsp]
  have hnlid : collapseNL z = z := by
    have := collapseNLAux_id z 0 (by omega) hnl
    simpa [collapseNL] using this
  rw [show collapseNL z = collapseNLAux 0 z from rfl] at hnlid
  rw [show collapseNL z = collapseNLAux 0 z from rfl, hnlid]
  rw [hzdef]
  exact pyStrip_idem _

/-! ### Claim C7 -/

theorem chunk_text_total (pt : List Char) (size overlap : Nat)
    (hov : overlap < size) :
    ∃ cs, chunk_text pt size overlap = some cs := by
  by_cases hn : (pyStrip pt).length ≤ size
  · exact ⟨_, chunk_text_short pt size overlap hn⟩
  · obtain ⟨cs, h, -⟩ := chunk_text_sound pt size overlap hov (by omega)
    exact ⟨cs, h⟩

/-- Every window produced by `chunk_text` has at least
`min (trimmed length) (overlap + 1)` characters: the single window is the
whole trimmed text, every full window has `size > overlap` characters, and
the clipped last window still exceeds the `overlap` carried into it. -/
theorem chunk_text_mem_length (pt : List Char) (size overlap : Nat)
    (hov : overlap < size) (cs : List (List Char))
    (hrun : chunk_text pt size overlap = some cs) :
    ∀ c ∈ cs, min (pyStrip pt).length (overlap + 1) ≤ c.length := by
  by_cases hn : (pyStrip pt).length ≤ size
  · rw [chunk_text_short pt size overlap hn] at hrun
    obtain rfl : [pyStrip pt] = cs := Option.some.inj hrun
    intro c hc
    obtain rfl : c = pyStrip pt := by simpa using hc
    omega
  · obtain ⟨cs', hrun', hne, hwin, hfull, hlast, hinv⟩ :=
      chunk_text_sound pt size overlap hov (by omega)
    rw [hrun'] at hrun
    have hcc : cs' = cs := Option.some.inj hrun
    intro c hc
    rw [← hcc] at hc
    obtain ⟨i, hi, hgel⟩ := List.mem_iff_getElem.mp hc
    have hgd : cs'.getD i [] = c := by rw [getD_of_lt cs' i [] hi, hgel]
    have hwini := hwin i hi
    rw [hgd] at hwini
    have hmono : i * (size - overlap) ≤ (cs'.length - 1) * (size - overlap) :=
      Nat.mul_le_mul_right _ (by omega)
    rw [hwini]
    simp only [List.length_take, List.length_drop]
    set q1 := i * (size - overlap) with hq1
    set q2 := (cs'.length - 1) * (size - overlap) with hq2
    omega

/-- Invariant of the per-page loop: every row it emits is a non-OCR row whose
text is a chunk of a cleaned page that survived the 30-character filter. -/
theorem pageRows_inv (row : SrcRecord) (f : FileEntry) (i : Nat)
    (pt : List Char) :
    ∀ r ∈ pageRows row f i pt,
      r.needs_ocr = false ∧ r.text ≠ [] ∧ 30 ≤ r.text.length := by
  intro r hr
  unfold pageRows at hr
  by_cases hguard : (clean_text pt).isEmpty || decide ((clean_text pt).length < 30)
  · rw [if_pos hguard] at hr
    simp at hr
  · rw [if_neg hguard] at hr
    simp only [Bool.or_eq_true, List.isEmpty_iff, decide_eq_true_eq,
      not_or, not_lt] at hguard
    obtain ⟨cs, hcs⟩ :=
      chunk_text_total (clean_text pt) CHUNK_SIZE CHUNK_OVERLAP (by decide)
    rw [hcs] at hr
    simp only [Option.getD_some, List.mem_map] at hr
    obtain ⟨ch, hch, rfl⟩ := hr
    have hlen := chunk_text_mem_length (clean_text pt) CHUNK_SIZE CHUNK_OVERLAP
      (by decide) cs hcs ch hch
    have hstrip : pyStrip (clean_text pt) = clean_text pt := pyStrip_idem _
    rw [hstrip] at hlen
    have hge := hguard.2
    simp only [CHUNK_OVERLAP] at hlen
    refine ⟨rfl, ?_, ?_⟩
    · show ch ≠ []
      intro hnil
      rw [hnil] at hlen
      simp only [List.length_nil] at hlen
      omega
    · show 30 ≤ ch.length
      omega

/-- C7: every chunk record produced by `build_chunks_for_doc` with
`needs_ocr = false` has non-empty text of length at least 30: pages whose
normalised text is shorter than 30 characters contribute nothing, and the
default chunking never emits a window shorter than 30 characters. -/
theorem C7_min_chunk_length (row : SrcRecord) (f : FileEntry) :
    ∀ r ∈ build_chunks_for_doc row f,
      r.needs_ocr = false → r.text ≠ [] ∧ 30 ≤ r.text.length := by
  intro r hr hocr
  unfold build_chunks_for_doc at hr
  by_cases hpdf : f.ext = ".pdf"
  · rw [if_pos hpdf] at hr
    rcases hEP : extract_pdf_text f.pdfPages f.pmPages with ⟨pages, flag⟩
    rw [hEP] at hr
    cases flag with
    | true =>
      simp only [if_pos trivial, List.mem_singleton] at hr
      rw [hr] at hocr
      simp at hocr
    | false =>
      simp only [Bool.false_eq_true, if_false, List.mem_flatMap] at hr
      obtain ⟨p, -, hp⟩ := hr
      exact (pageRows_inv row f p.1 p.2 r hp).2
  · rw [if_neg hpdf] at hr
    by_cases htxt : f.ext = ".txt" ∨ f.ext = ".text"
    · rw [if_pos htxt] at hr
      simp only [List.mem_flatMap] at hr
      obtain ⟨p, -, hp⟩ := hr
      exact (pageRows_inv row f p.1 p.2 r hp).2
    · rw [if_neg htxt] at hr
      by_cases hhtml : f.ext = ".html" ∨ f.ext = ".htm"
      · rw [if_pos hhtml] at hr
        simp only [List.mem_flatMap] at hr
        obtain ⟨p, -, hp⟩ := hr
        exact (pageRows_inv row f p.1 p.2 r hp).2
      · rw [if_neg hhtml] at hr
        simp at hr

/-- C7 witness: the invariant applied to the single row produced for a
40-character `.txt` file. -/
theorem C7_min_chunk_length_witness :
    (ChunkRow.mk ['d'] ['t'] (some 1) [] []
      (List.replicate 40 'a') ['f'] false).text ≠ [] ∧
    30 ≤ (ChunkRow.mk ['d'] ['t'] (some 1) [] []
      (List.replicate 40 'a') ['f'] false).text.length := by
  refine C7_min_chunk_length
    ⟨['d'], ['t'], [], []⟩
    ⟨['f'], ".txt", [], [], List.replicate 40 'a'⟩
    _ ?_ rfl
  decide

/-! ### Claim C6 -/

/-- C6 counterexample: five tier-1 pages of which exactly one is usable, and
an empty fallback result.  The claim's hypothesis holds under the exact real
threshold (`1 < max(1, 0.3·5) = 1.5`) and the fallback yields nothing
usable, yet the code accepts tier 1 (truncated threshold) and produces a
normal non-OCR chunk row instead of the single placeholder. -/
theorem C6_counterexample :
    ((1 : ℚ) < max 1 ((3 : ℚ) / 10 * 5)) ∧
    nonEmptyCount [List.replicate 31 'a', [], [], [], []] = 1 ∧
    ([List.replicate 31 'a', [], [], [], []] : List (List Char)).length = 5 ∧
    nonEmptyCount ([] : List (List Char)) = 0 ∧
    (extract_pdf_text [List.replicate 31 'a', [], [], [], []] []).2 = false ∧
    build_chunks_for_doc (SrcRecord.mk ['d'] ['t'] [] [])
        (FileEntry.mk ['f'] ".pdf" [List.replicate 31 'a', [], [], [], []] [] [])
      ≠ [ChunkRow.mk ['d'] ['t'] none [] [] [] ['f'] true] ∧
    (∀ r ∈ build_chunks_for_doc (SrcRecord.mk ['d'] ['t'] [] [])
        (FileEntry.mk ['f'] ".pdf" [List.replicate 31 'a', [], [], [], []] [] []),
      r.needs_ocr = false) := by
  refine ⟨?_, by decide, by decide, by decide, by decide, by decide, by decide⟩
  norm_num

/-- C6 (amended): if the tier-1 page texts contain fewer than
`max(1, int(0.3 × pages))` usable pages — the *truncated* threshold the code
computes — and the fallback extractor yields no segment with usable text,
then `build_chunks_for_doc` produces exactly one placeholder record with
`needs_ocr = true`, `page = none` and empty text (and, being a total
function, returns it rather than raising an error). -/
theorem C6_ocr_placeholder (row : SrcRecord) (f : FileEntry)
    (hext : f.ext = ".pdf")
    (h1 : nonEmptyCount f.pdfPages < max 1 (3 * f.pdfPages.length / 10))
    (h2 : nonEmptyCount f.pmPages = 0) :
    build_chunks_for_doc row f =
      [ChunkRow.mk row.doc_id row.title none row.url row.vigencia []
        f.stem true] := by
  have ht1 : tier1Accepts f.pdfPages = false := by
    cases hA : tier1Accepts f.pdfPages with
    | false => rfl
    | true =>
      have := (tier1Accepts_iff f.pdfPages).mp hA
      omega
  have ht2 : tier2Accepts f.pmPages = false := by
    simp [tier2Accepts, h2]
  have hE : extract_pdf_text f.pdfPages f.pmPages = ([], true) := by
    simp [extract_pdf_text, ht1, ht2]
  unfold build_chunks_for_doc
  rw [if_pos hext, hE]
  rfl

/-- C6 witness: a PDF for which both backends return nothing. -/
theorem C6_ocr_placeholder_witness :
    build_chunks_for_doc (SrcRecord.mk ['d'] ['t'] [] [])
        (FileEntry.mk ['f'] ".pdf" [] [] []) =
      [ChunkRow.mk ['d'] ['t'] none [] [] [] ['f'] true] := by
  have h := C6_ocr_placeholder (SrcRecord.mk ['d'] ['t'] [] [])
    (FileEntry.mk ['f'] ".pdf" [] [] []) rfl (by decide) (by decide)
  exact h

/-! ### Claim C9 -/

theorem find?_of_split {α : Type} (p : α → Bool) (l₁ : List α) (f : α)
    (l₂ : List α) (hf : p f = true) (hl : ∀ g ∈ l₁, p g = false) :
    (l₁ ++ f :: l₂).find? p = some f := by
  induction l₁ with
  | nil => simp [List.find?_cons_of_pos, hf]
  | cons g gs ih =>
    have hg := hl g (by simp)
    rw [List.cons_append, List.find?_cons_of_neg _ (by simp [hg])]
    exact ih (fun x hx => hl x (by simp [hx]))

theorem find?_none_of_all {α : Type} (p : α → Bool) (l : List α)
    (h : ∀ g ∈ l, p g = false) : l.find? p = none := by
  rw [List.find?_eq_none]
  intro x hx
  simp [h x hx]

/-- C9: the resolver is a strict two-stage first-match search.  (a) Any
returned file belongs to the listing and either matches the doc id, or
matches the title key while no file at all matches the doc id; (b) if some
file matches the doc id, the first such file (in listing order) is returned;
(c) if no file matches the doc id but some file matches the title key, the
first such file is returned; (d) if both stages fail, the resolver returns
nothing and the main loop records the doc id as missing, emits no rows, and
continues normally. -/
theorem C9_two_stage_resolver (sr : SrcRecord) (files : List FileEntry) :
    (∀ g, resolveFile sr.doc_id sr.title files = some g →
       g ∈ files ∧
       (docIdMatch sr.doc_id g = true ∨
        (titleMatch sr.title g = true ∧
         ∀ f ∈ files, docIdMatch sr.doc_id f = false))) ∧
    (∀ l₁ f l₂, files = l₁ ++ f :: l₂ → docIdMatch sr.doc_id f = true →
       (∀ g ∈ l₁, docIdMatch sr.doc_id g = false) →
       resolveFile sr.doc_id sr.title files = some f) ∧
    (∀ l₁ f l₂, files = l₁ ++ f :: l₂ →
       (∀ g ∈ files, docIdMatch sr.doc_id g = false) →
       titleMatch sr.title f = true →
       (∀ g ∈ l₁, titleMatch sr.title g = false) →
       resolveFile sr.doc_id sr.title files = some f) ∧
    ((∀ g ∈ files, docIdMatch sr.doc_id g = false ∧
        titleMatch sr.title g = false) →
       resolveFile sr.doc_id sr.title files = none ∧
       processAll files [sr] = ([], [sr.doc_id])) := by
  refine ⟨?_, ?_, ?_, ?_⟩
  · intro g hg
    unfold resolveFile at hg
    cases hfind : files.find? (docIdMatch sr.doc_id) with
    | some f =>
      rw [hfind] at hg
      obtain rfl : f = g := Option.some.inj hg
      exact ⟨List.mem_of_find?_eq_some hfind,
        Or.inl (List.find?_some hfind)⟩
    | none =>
      rw [hfind] at hg
      refine ⟨List.mem_of_find?_eq_some hg,
        Or.inr ⟨List.find?_some hg, ?_⟩⟩
      intro f hf
      have := List.find?_eq_none.mp hfind f hf
      simpa using this
  · intro l₁ f l₂ hsplit hf hl
    unfold resolveFile
    rw [hsplit, find?_of_split _ l₁ f l₂ hf hl]
  · intro l₁ f l₂ hsplit hnone hf hl
    unfold resolveFile
    rw [find?_none_of_all _ files hnone, hsplit,
      find?_of_split _ l₁ f l₂ hf hl]
  · intro hboth
    have hres : resolveFile sr.doc_id sr.title files = none := by
      unfold resolveFile
      rw [find?_none_of_all _ files (fun g hg => (hboth g hg).1),
        find?_none_of_all _ files (fun g hg => (hboth g hg).2)]
    refine ⟨hres, ?_⟩
    simp [processAll, hres]

/-- C9 witness: a one-file listing resolved in stage 1. -/
theorem C9_two_stage_resolver_witness :
    resolveFile ['r'] ['t'] [FileEntry.mk ['r'] ".txt" [] [] []] =
      some (FileEntry.mk ['r'] ".txt" [] [] []) :=
  (C9_two_stage_resolver (SrcRecord.mk ['r'] ['t'] [] [])
    [FileEntry.mk ['r'] ".txt" [] [] []]).2.1
    [] (FileEntry.mk ['r'] ".txt" [] [] []) [] rfl (by decide) (by simp)

/-! ### Claim C10 -/

/-- A PDF classified `needs_ocr` contributes exactly its placeholder row. -/
theorem build_pdf_ocr (row : SrcRecord) (f : FileEntry)
    (hext : f.ext = ".pdf")
    (hocr : (extract_pdf_text f.pdfPages f.pmPages).2 = true) :
    build_chunks_for_doc row f =
      [ChunkRow.mk row.doc_id row.title none row.url row.vigencia []
        f.stem true] := by
  unfold build_chunks_for_doc
  rw [if_pos hext]
  rcases hEP : extract_pdf_text f.pdfPages f.pmPages with ⟨pages, flag⟩
  rw [hEP] at hocr
  simp only at hocr
  subst hocr
  rfl

/-- C10: placeholder rows count as produced chunks for the fatal empty-run
check.  If every document that resolves to a file resolves to a PDF
classified `needs_ocr` — and at least one document resolves — `main`
persists a table consisting only of placeholder rows (`needs_ocr = true`,
empty text) and terminates successfully instead of taking the fatal
zero-chunks exit. -/
theorem C10_ocr_only_run (records : List SrcRecord) (files : List FileEntry)
    (hall : ∀ sr ∈ records, ∀ f,
      resolveFile sr.doc_id sr.title files = some f →
      f.ext = ".pdf" ∧ (extract_pdf_text f.pdfPages f.pmPages).2 = true)
    (hsome : ∃ sr ∈ records, ∃ f,
      resolveFile sr.doc_id sr.title files = some f) :
    ∃ rows missing, mainRun records files = MainResult.saved rows missing ∧
      rows ≠ [] ∧ ∀ r ∈ rows, r.needs_ocr = true ∧ r.text = [] := by
  obtain ⟨sr0, hsr0, f0, hf0⟩ := hsome
  have hfne : ¬ files.isEmpty = true := by
    intro hemp
    rw [List.isEmpty_iff] at hemp
    subst hemp
    simp [resolveFile] at hf0
  have key : ∀ rs, (∀ sr ∈ rs, ∀ f,
        resolveFile sr.doc_id sr.title files = some f →
        f.ext = ".pdf" ∧ (extract_pdf_text f.pdfPages f.pmPages).2 = true) →
      (∀ r ∈ (processAll files rs).1, r.needs_ocr = true ∧ r.text = []) ∧
      (∀ sr ∈ rs, ∀ f, resolveFile sr.doc_id sr.title files = some f →
        (processAll files rs).1 ≠ []) := by
    intro rs
    induction rs with
    | nil =>
      intro _
      exact ⟨by simp [processAll], by simp⟩
    | cons sr rest ih =>
      intro h
      obtain ⟨ih1, ih2⟩ := ih (fun x hx => h x (by simp [hx]))
      cases hres : resolveFile sr.doc_id sr.title files with
      | none =>
        constructor
        · intro r hr
          simp only [processAll, hres] at hr
          exact ih1 r hr
        · intro sx hsx fx hfx
          rcases List.mem_cons.mp hsx with h1 | h1
          · subst h1
            rw [hres] at hfx
            cases hfx
          · simp only [processAll, hres]
            exact ih2 sx h1 fx hfx
      | some f =>
        have hprops := h sr (by simp) f hres
        have hbuild := build_pdf_ocr sr f hprops.1 hprops.2
        constructor
        · intro r hr
          simp only [processAll, hres, hbuild, List.cons_append,
            List.nil_append, List.mem_cons] at hr
          rcases hr with h1 | h1
          · subst h1
            exact ⟨rfl, rfl⟩
          · exact ih1 r h1
        · intro sx hsx fx hfx
          simp [processAll, hres, hbuild]
  obtain ⟨krows, knone⟩ := key records hall
  have hrne : (processAll files records).1 ≠ [] := knone sr0 hsr0 f0 hf0
  refine ⟨(processAll files records).1, (processAll files records).2, ?_, hrne, krows⟩
  unfold mainRun
  rw [if_neg hfne]
  rw [if_neg (by simpa [List.isEmpty_iff] using hrne)]

/-- C10 witness: one record resolving to one unreadable PDF. -/
theorem C10_ocr_only_run_witness :
    ∃ rows missing,
      mainRun [SrcRecord.mk ['r'] ['t'] [] []]
          [FileEntry.mk ['r'] ".pdf" [] [] []] =
        MainResult.saved rows missing ∧
      rows ≠ [] ∧ ∀ r ∈ rows, r.needs_ocr = true ∧ r.text = [] := by
  refine C10_ocr_only_run _ _ ?_ ?_
  · intro sr hsr f hf
    obtain rfl : sr = SrcRecord.mk ['r'] ['t'] [] [] := by simpa using hsr
    have hres : resolveFile (SrcRecord.mk ['r'] ['t'] [] []).doc_id
        (SrcRecord.mk ['r'] ['t'] [] []).title
        [FileEntry.mk ['r'] ".pdf" [] [] []] =
        some (FileEntry.mk ['r'] ".pdf" [] [] []) := by decide
    have hff := hres.symm.trans hf
    obtain rfl : FileEntry.mk ['r'] ".pdf" [] [] [] = f :=
      Option.some.inj hff
    exact ⟨rfl, by decide⟩
  · exact ⟨SrcRecord.mk ['r'] ['t'] [] [], by simp,
      FileEntry.mk ['r'] ".pdf" [] [] [], by decide⟩
